import Mathlib

/-!
Verification development for the ModSimPy corpus.

Part I embeds, directly from the source notebooks, the domain formulas the
claims mention: `moment_of_inertia` from the kitten (toilet-paper) case study
and `drag_force` from the electric-car case study, together with the
`make_system` constructor that builds the parameter container the former
reads.  Real-number arithmetic is modelled over an arbitrary linear ordered
field `K` (so all definitions stay executable; concrete evaluations use
`K := ℚ`), and the global constant `pi` the source reads is passed as an
explicit positive element of `K`.

Part II models the adaptive initial-value-problem integrator with dense
output and event detection.  The repository's notebooks call this solver
(`run_ode_solver`) from a support module that is not part of the sources
here; following the design specification, the integrator is modelled from
the spec's own description (embedded Runge-Kutta pair, safety-factored
power-law step control, per-step linear dense output, bisection-based event
localization, earliest-crossing/lowest-index event resolution).  Times and
state components are rationals, so the model is executable and decidable.
-/

set_option maxHeartbeats 1600000
set_option maxRecDepth 8000

namespace ModSim

/-! ## Part I: domain formulas embedded from the notebooks -/

variable {K : Type} [LinearOrderedField K]

/-- Parameter container for the kitten (toilet-paper roll) case study,
mirroring the `Params` object of `kitten.ipynb`
(`Rmin`, `Rmax`, `Mcore`, `Mroll`, `L`). -/
structure RollParams (K : Type) where
  Rmin : K
  Rmax : K
  Mcore : K
  Mroll : K
  L : K

/-- System container produced by `make_system` in `kitten.ipynb`:
carries the derived areal density `rho_h` and the constant `k` along with
the raw parameters. -/
structure RollSystem (K : Type) where
  Rmin : K
  Rmax : K
  Mcore : K
  Mroll : K
  rho_h : K
  k : K

/-- `make_system` from `kitten.ipynb`:
`area = pi * (Rmax**2 - Rmin**2)`, `rho_h = Mroll / area`,
`k = (Rmax**2 - Rmin**2) / 2 / L / radian` (the trailing unit factor
`radian` is dimensionless bookkeeping, stripped here as the spec scopes
unit wrappers out of the core). -/
def make_system (pi : K) (p : RollParams K) : RollSystem K :=
  let area := pi * (p.Rmax ^ 2 - p.Rmin ^ 2)
  { Rmin := p.Rmin
    Rmax := p.Rmax
    Mcore := p.Mcore
    Mroll := p.Mroll
    rho_h := p.Mroll / area
    k := (p.Rmax ^ 2 - p.Rmin ^ 2) / 2 / p.L }

/-- `moment_of_inertia` from `kitten.ipynb`:
`Icore = Mcore * Rmin**2`, `Iroll = pi * rho_h / 2 * (r**4 - Rmin**4)`,
returning `Icore + Iroll`. -/
def moment_of_inertia (pi : K) (r : K) (sys : RollSystem K) : K :=
  let Icore := sys.Mcore * sys.Rmin ^ 2
  let Iroll := pi * sys.rho_h / 2 * (r ^ 4 - sys.Rmin ^ 4)
  Icore + Iroll

/-- System container for the electric-car case study in the book notebook:
the fields `drag_force` reads (`rho`, `C_d`, `area`) plus the vehicle mass. -/
structure CarSystem (K : Type) where
  rho : K
  C_d : K
  area : K
  mass : K

/-- `np.sign` as used by `drag_force`: `1` on positives, `-1` on negatives,
`0` at zero. -/
def np_sign (v : K) : K :=
  if v > 0 then 1 else if v < 0 then -1 else 0

/-- `drag_force` from the electric-car notebook:
`f_drag = -np.sign(v) * rho * v**2 * C_d * area / 2`. -/
def drag_force (v : K) (sys : CarSystem K) : K :=
  -np_sign v * sys.rho * v ^ 2 * sys.C_d * sys.area / 2

end ModSim

namespace IVP

/-- Modelled from the spec: the state vector, "an ordered, fixed-length tuple
of real-valued scalars"; components are rationals so the model is
executable. -/
abbrev Vec := List ℚ

/-- Componentwise vector addition. -/
def vadd (a b : Vec) : Vec := List.zipWith (· + ·) a b

/-- Componentwise vector subtraction. -/
def vsub (a b : Vec) : Vec := List.zipWith (· - ·) a b

/-- Scalar multiple of a vector. -/
def vscale (c : ℚ) (a : Vec) : Vec := a.map (fun x => c * x)

/-- Modelled from the spec: the direction filter of an event function
(rising-through-zero, falling-through-zero, or either). -/
inductive Direction where
  | rising
  | falling
  | either
deriving DecidableEq

/-- Modelled from the spec: an event function, "a mapping from (state, time)
to a real scalar", carrying the `terminal` flag and the direction filter. -/
structure EventFn where
  fn : Vec → ℚ → ℚ
  terminal : Bool
  direction : Direction

/-- Modelled from the spec: the error taxonomy of the integrator
(`InvalidSpanError`, `StepSizeUnderflowError`, `StepBudgetExceededError`). -/
inductive ErrKind where
  | invalidSpan
  | stepSizeUnderflow
  | stepBudgetExceeded
deriving DecidableEq

/-- Modelled from the spec: the final status of a run,
`completed / stopped-by-event / failed`. -/
inductive Status where
  | completed
  | stoppedByEvent (idx : Nat) (tEvent : ℚ)
  | failed (e : ErrKind)
deriving DecidableEq

/-- Modelled from the spec: the record kept for a detected (non-terminal)
event crossing: the event's index, the localized crossing time, and the
accepted step bracket on which it was detected. -/
structure EventRecord where
  idx : Nat
  tCross : ℚ
  t0 : ℚ
  t1 : ℚ
  y0 : Vec
  y1 : Vec
deriving DecidableEq

/-- Modelled from the spec: the "which event and at what exact time/state"
diagnostic attached to a run stopped by a terminal event, together with the
accepted step bracket enclosing the crossing. -/
structure StopInfo where
  idx : Nat
  tEvent : ℚ
  yEvent : Vec
  t0 : ℚ
  t1 : ℚ
  y0 : Vec
  y1 : Vec
deriving DecidableEq

/-- Modelled from the spec: the run result — the trajectory plus status,
event records and, if stopped by an event, the stop diagnostic. -/
structure RunResult where
  traj : List (ℚ × Vec)
  status : Status
  records : List EventRecord
  eventStop : Option StopInfo
deriving DecidableEq

/-- Modelled from the spec: the options of `integrate` — `max_step`,
`first_step`, `rtol`/`atol`, the event list, `max_steps`, the minimum
representable step (floor of the adaptive controller) and the bisection
depth used as the event-time tolerance. -/
structure Options where
  maxStep : ℚ
  firstStep : ℚ
  rtol : ℚ
  atol : ℚ
  hMin : ℚ
  maxSteps : Nat
  nBisect : Nat
  events : List EventFn

/-- Well-formedness of the options: a positive step floor below the initial
step guess, itself at most `max_step`. -/
def Options.Valid (o : Options) : Prop :=
  0 < o.hMin ∧ o.hMin ≤ o.firstStep ∧ o.firstStep ≤ o.maxStep

instance (o : Options) : Decidable o.Valid := by
  unfold Options.Valid
  infer_instance

/-- Modelled from the spec: the safety factor of the power-law step rule. -/
def safety : ℚ := 9 / 10

/-- Modelled from the spec: the `max_factor` cap of the power-law step
rule. -/
def maxFactor : ℚ := 5

/-- Modelled from the spec: the `rtol`/`atol`-scaled error norm of the
difference between the high- and low-order estimates. -/
def errEst (atol rtol : ℚ) (yHigh yLow : Vec) : ℚ :=
  (List.zipWith (fun a b => |a - b| / (atol + rtol * |a|)) yHigh yLow).foldr max 0

/-- Modelled from the spec: the embedded Runge-Kutta pair (here the
order-2/1 Heun-Euler pair; the spec leaves the exact tableau open).
Returns the high-order and the low-order estimate of the next state. -/
def rkPair (f : Vec → ℚ → Vec) (y : Vec) (t h : ℚ) : Vec × Vec :=
  let k1 := f y t
  let k2 := f (vadd y (vscale h k1)) (t + h)
  (vadd y (vscale (h / 2) (vadd k1 k2)), vadd y (vscale h k1))

/-- Modelled from the spec: the scaled error estimate `E` of a proposed step
of size `h` from `(t, y)`. -/
def stepError (atol rtol : ℚ) (f : Vec → ℚ → Vec) (y : Vec) (t h : ℚ) : ℚ :=
  let p := rkPair f y t h
  errEst atol rtol p.1 p.2

/-- Modelled from the spec: the factor `min(max_factor, safety * E**(-1))`
of the power-law step rule, for the order-1 low-order method; guarded at
`E = 0` where the rule allows the maximal growth. -/
def stepFactor (E : ℚ) : ℚ :=
  if E ≤ 0 then maxFactor else min maxFactor (safety / E)

/-- Modelled from the spec: one shrink/rescale of the step size by the
power-law rule. -/
def shrinkOnce (atol rtol : ℚ) (f : Vec → ℚ → Vec) (y : Vec) (t h : ℚ) : ℚ :=
  h * stepFactor (stepError atol rtol f y t h)

/-- Iterated shrinkage of the step size, used to phrase what "repeated
shrinkage underflows" means. -/
def shrinkIter (atol rtol : ℚ) (f : Vec → ℚ → Vec) (y : Vec) (t : ℚ) (k : Nat) (h : ℚ) : ℚ :=
  (shrinkOnce atol rtol f y t)^[k] h

/-- An accepted step: the step size actually used and the new state. -/
structure StepResult where
  h : ℚ
  yNew : Vec
deriving DecidableEq

/-- Fuel that provably dominates the number of power-law shrinkages a
proposal of size `h` can undergo before falling below the floor `hMin`. -/
def neededFuel (hMin h : ℚ) : Nat :=
  (⌈20 * h / hMin⌉).toNat + 1

/-- Modelled from the spec: the adaptive acceptance loop — accept the
proposed step iff `E <= 1`, otherwise shrink `h` by the safety-factored
power-law rule and retry, failing with `StepSizeUnderflowError` when `h`
falls below the minimum representable step. -/
def tryStep (atol rtol hMin : ℚ) (f : Vec → ℚ → Vec) (y : Vec) (t : ℚ) :
    Nat → ℚ → Except ErrKind StepResult
  | 0, _ => .error .stepSizeUnderflow
  | fuel + 1, h =>
    if h < hMin then .error .stepSizeUnderflow
    else if stepError atol rtol f y t h ≤ 1 then .ok ⟨h, (rkPair f y t h).1⟩
    else tryStep atol rtol hMin f y t fuel (shrinkOnce atol rtol f y t h)

/-- Modelled from the spec: the dense-output interpolant of an accepted step
`[t0, t1]`, a polynomial (here linear) interpolant matching the step's
endpoint states, queried at an arbitrary time within the step. -/
def denseEval (t0 t1 : ℚ) (y0 y1 : Vec) (t : ℚ) : Vec :=
  vadd y0 (vscale ((t - t0) / (t1 - t0)) (vsub y1 y0))

/-- An event function read through the step's dense-output interpolant, as a
scalar function of time on the step. -/
def eventG (e : EventFn) (t0 t1 : ℚ) (y0 y1 : Vec) (t : ℚ) : ℚ :=
  e.fn (denseEval t0 t1 y0 y1 t) t

/-- Modelled from the spec: the bracketing root-finder (bisection) used to
localize an event's zero crossing inside an accepted step. -/
def bisect (g : ℚ → ℚ) (lo hi : ℚ) : Nat → ℚ × ℚ
  | 0 => (lo, hi)
  | n + 1 =>
    let mid := (lo + hi) / 2
    if g lo * g mid ≤ 0 then bisect g lo mid n else bisect g mid hi n

/-- Modelled from the spec: the interpolated zero-crossing time reported for
an event on the accepted step `[t0, t1]` — the upper end of the final
bisection bracket. -/
def crossTime (e : EventFn) (t0 t1 : ℚ) (y0 y1 : Vec) (n : Nat) : ℚ :=
  (bisect (eventG e t0 t1 y0 y1) t0 t1 n).2

/-- A rising zero crossing of the event scalar across a step. -/
def risingPattern (g0 g1 : ℚ) : Prop := g0 < 0 ∧ 0 ≤ g1

/-- A falling zero crossing of the event scalar across a step. -/
def fallingPattern (g0 g1 : ℚ) : Prop := 0 < g0 ∧ g1 ≤ 0

/-- Modelled from the spec: the per-step trigger test — the event scalar
changes sign across the accepted step consistently with the event's
configured direction filter. -/
def checkTrigger (e : EventFn) (g0 g1 : ℚ) : Bool :=
  match e.direction with
  | .rising => decide (g0 < 0) && decide (0 ≤ g1)
  | .falling => decide (0 < g0) && decide (g1 ≤ 0)
  | .either =>
      (decide (g0 < 0) && decide (0 ≤ g1)) || (decide (0 < g0) && decide (g1 ≤ 0))

/-- An event that triggered on a step: its index in the configured list, the
event itself, and its localized crossing time. -/
structure Trigger where
  idx : Nat
  ev : EventFn
  tCross : ℚ

/-- Modelled from the spec: evaluate every configured event function at the
two endpoints of the accepted step and collect, in configuration order,
those whose sign change passes the direction filter, each with its
localized crossing time. -/
def trigList (t0 t1 : ℚ) (y0 y1 : Vec) (nB : Nat) : Nat → List EventFn → List Trigger
  | _, [] => []
  | i, e :: es =>
    let rest := trigList t0 t1 y0 y1 nB (i + 1) es
    if checkTrigger e (eventG e t0 t1 y0 y1 t0) (eventG e t0 t1 y0 y1 t1)
    then ⟨i, e, crossTime e t0 t1 y0 y1 nB⟩ :: rest
    else rest

/-- Modelled from the spec: resolution of several events triggering within
the same step — earliest crossing time wins, ties broken in favour of the
event earlier in the configured list. -/
def selectWinner : List Trigger → Option Trigger
  | [] => none
  | c :: rest =>
    match selectWinner rest with
    | none => some c
    | some b => if b.tCross < c.tCross then some b else some c

/-- The event record produced for a trigger detected on a given step. -/
def mkRecord (t0 t1 : ℚ) (y0 y1 : Vec) (tr : Trigger) : EventRecord :=
  ⟨tr.idx, tr.tCross, t0, t1, y0, y1⟩

/-- Modelled from the spec: the main integration loop — propose a step
capped by `max_step` and the remaining span, run the adaptive acceptance
loop, detect and localize events on the accepted step, stop at the earliest
terminal crossing (truncating the trajectory at the interpolated crossing
time and state), record non-terminal crossings, and continue until the end
of the span, exhaustion of the accepted-step budget, or failure. -/
def loop (f : Vec → ℚ → Vec) (o : Options) (tEnd : ℚ) :
    Nat → ℚ → Vec → ℚ → List (ℚ × Vec) → List EventRecord → RunResult
  | 0, _, _, _, traj, recs => ⟨traj, .failed .stepBudgetExceeded, recs, none⟩
  | fuel + 1, t, y, h, traj, recs =>
    if tEnd ≤ t then ⟨traj, .completed, recs, none⟩
    else
      let hProp := min (min h (tEnd - t)) o.maxStep
      match tryStep o.atol o.rtol o.hMin f y t (neededFuel o.hMin hProp) hProp with
      | .error e => ⟨traj, .failed e, recs, none⟩
      | .ok st =>
        let t1 := t + st.h
        let y1 := st.yNew
        let trig := trigList t t1 y y1 o.nBisect 0 o.events
        match selectWinner (trig.filter (fun tr => tr.ev.terminal)) with
        | some w =>
          let yE := denseEval t t1 y y1 w.tCross
          { traj := traj ++ [(w.tCross, yE)]
            status := .stoppedByEvent w.idx w.tCross
            records := recs ++ (trig.filter
                (fun tr => !tr.ev.terminal && decide (tr.tCross ≤ w.tCross))).map (mkRecord t t1 y y1)
            eventStop := some ⟨w.idx, w.tCross, yE, t, t1, y, y1⟩ }
        | none =>
          loop f o tEnd fuel t1 y1
            (st.h * stepFactor (stepError o.atol o.rtol f y t st.h))
            (traj ++ [(t1, y1)]) (recs ++ trig.map (mkRecord t t1 y y1))

/-- Modelled from the spec: a possibly non-finite time bound, since the
span's bounds must be rejected when non-finite. -/
inductive RFloat where
  | fin (q : ℚ)
  | posInf
  | negInf
  | nan
deriving DecidableEq

/-- Whether a bound is finite. -/
def RFloat.isFinite : RFloat → Bool
  | .fin _ => true
  | _ => false

/-- The rational value of a finite bound (`0` for non-finite ones). -/
def RFloat.val : RFloat → ℚ
  | .fin q => q
  | _ => 0

/-- Modelled from the spec: the integrator's entry point
`integrate(derivative_fn, initial_state, t_start, t_end, options)`.
Validates the span (finite bounds with `t_start < t_end`), seeds the
trajectory with `(t_start, initial_state)` and runs the main loop with the
accepted-step budget `max_steps`. -/
def integrate (f : Vec → ℚ → Vec) (y0 : Vec) (tStart tEnd : RFloat) (o : Options) : RunResult :=
  match tStart, tEnd with
  | .fin ts, .fin te =>
    if ts < te then loop f o te o.maxSteps ts y0 o.firstStep [(ts, y0)] []
    else ⟨[], .failed .invalidSpan, [], none⟩
  | _, _ => ⟨[], .failed .invalidSpan, [], none⟩

/-! ### Lemmas on the adaptive acceptance loop -/

theorem stepFactor_pos (E : ℚ) : 0 < stepFactor E := by
  unfold stepFactor maxFactor safety
  split_ifs with h
  · norm_num
  · push_neg at h
    exact lt_min (by norm_num) (div_pos (by norm_num) h)

theorem shrinkOnce_le (atol rtol : ℚ) (f : Vec → ℚ → Vec) (y : Vec) (t h : ℚ)
    (hE : 1 < stepError atol rtol f y t h) (hh : 0 < h) :
    shrinkOnce atol rtol f y t h ≤ 9 / 10 * h ∧ 0 < shrinkOnce atol rtol f y t h := by
  unfold shrinkOnce
  constructor
  · have hfac : stepFactor (stepError atol rtol f y t h) ≤ 9 / 10 := by
      unfold stepFactor safety
      rw [if_neg (by linarith)]
      refine le_trans (min_le_right _ _) ?_
      rw [div_le_iff (by linarith : (0 : ℚ) < stepError atol rtol f y t h)]
      nlinarith
    nlinarith [hfac, hh]
  · exact mul_pos hh (stepFactor_pos _)

theorem tryStep_error_kind (atol rtol hMin : ℚ) (f : Vec → ℚ → Vec) (y : Vec) (t : ℚ) :
    ∀ fuel h e, tryStep atol rtol hMin f y t fuel h = .error e → e = .stepSizeUnderflow := by
  intro fuel
  induction fuel with
  | zero =>
    intro h e heq
    simp only [tryStep] at heq
    exact (Except.error.inj heq).symm
  | succ fuel ih =>
    intro h e heq
    simp only [tryStep] at heq
    by_cases h1 : h < hMin
    · rw [if_pos h1] at heq
      exact (Except.error.inj heq).symm
    · rw [if_neg h1] at heq
      by_cases h2 : stepError atol rtol f y t h ≤ 1
      · rw [if_pos h2] at heq
        exact absurd heq (by simp)
      · rw [if_neg h2] at heq
        exact ih _ _ heq

theorem tryStep_ok_E (atol rtol hMin : ℚ) (f : Vec → ℚ → Vec) (y : Vec) (t : ℚ) :
    ∀ fuel h st, tryStep atol rtol hMin f y t fuel h = .ok st →
      stepError atol rtol f y t st.h ≤ 1 := by
  intro fuel
  induction fuel with
  | zero =>
    intro h st heq
    simp only [tryStep] at heq
    exact absurd heq (by simp)
  | succ fuel ih =>
    intro h st heq
    simp only [tryStep] at heq
    by_cases h1 : h < hMin
    · rw [if_pos h1] at heq
      exact absurd heq (by simp)
    · rw [if_neg h1] at heq
      by_cases h2 : stepError atol rtol f y t h ≤ 1
      · rw [if_pos h2] at heq
        rw [← Except.ok.inj heq]
        exact h2
      · rw [if_neg h2] at heq
        exact ih _ _ heq

theorem tryStep_ok_h_ge (atol rtol hMin : ℚ) (f : Vec → ℚ → Vec) (y : Vec) (t : ℚ) :
    ∀ fuel h st, tryStep atol rtol hMin f y t fuel h = .ok st → hMin ≤ st.h := by
  intro fuel
  induction fuel with
  | zero =>
    intro h st heq
    simp only [tryStep] at heq
    exact absurd heq (by simp)
  | succ fuel ih =>
    intro h st heq
    simp only [tryStep] at heq
    by_cases h1 : h < hMin
    · rw [if_pos h1] at heq
      exact absurd heq (by simp)
    · rw [if_neg h1] at heq
      by_cases h2 : stepError atol rtol f y t h ≤ 1
      · rw [if_pos h2] at heq
        rw [← Except.ok.inj heq]
        exact le_of_not_lt h1
      · rw [if_neg h2] at heq
        exact ih _ _ heq

theorem tryStep_ok_h_le (atol rtol hMin : ℚ) (f : Vec → ℚ → Vec) (y : Vec) (t : ℚ)
    (hm : 0 < hMin) :
    ∀ fuel h st, tryStep atol rtol hMin f y t fuel h = .ok st → st.h ≤ h := by
  intro fuel
  induction fuel with
  | zero =>
    intro h st heq
    simp only [tryStep] at heq
    exact absurd heq (by simp)
  | succ fuel ih =>
    intro h st heq
    simp only [tryStep] at heq
    by_cases h1 : h < hMin
    · rw [if_pos h1] at heq
      exact absurd heq (by simp)
    · rw [if_neg h1] at heq
      by_cases h2 : stepError atol rtol f y t h ≤ 1
      · rw [if_pos h2] at heq
        rw [← Except.ok.inj heq]
      · rw [if_neg h2] at heq
        push_neg at h2
        have hh : 0 < h := lt_of_lt_of_le hm (le_of_not_lt h1)
        have hsh := shrinkOnce_le atol rtol f y t h h2 hh
        exact le_trans (ih _ _ heq) (by linarith [hsh.1])

theorem tryStep_accept_iff (atol rtol hMin : ℚ) (f : Vec → ℚ → Vec) (y : Vec) (t : ℚ)
    (hm : 0 < hMin) :
    ∀ fuel h, hMin ≤ h →
      (tryStep atol rtol hMin f y t (fuel + 1) h = .ok ⟨h, (rkPair f y t h).1⟩
        ↔ stepError atol rtol f y t h ≤ 1) := by
  intro fuel h hge
  constructor
  · intro heq
    by_contra hE
    push_neg at hE
    simp only [tryStep] at heq
    rw [if_neg (not_lt.2 hge), if_neg (by push_neg; exact hE)] at heq
    have hh : 0 < h := lt_of_lt_of_le hm hge
    have hle := tryStep_ok_h_le atol rtol hMin f y t hm fuel _ _ heq
    have hsh := shrinkOnce_le atol rtol f y t h hE hh
    simp only at hle
    linarith [hsh.1]
  · intro hE
    simp only [tryStep]
    rw [if_neg (not_lt.2 hge), if_pos hE]

/-! ### Termination of the shrinkage iteration -/

theorem shrinkIter_zero (atol rtol : ℚ) (f : Vec → ℚ → Vec) (y : Vec) (t h : ℚ) :
    shrinkIter atol rtol f y t 0 h = h := rfl

theorem shrinkIter_succ (atol rtol : ℚ) (f : Vec → ℚ → Vec) (y : Vec) (t h : ℚ) (k : Nat) :
    shrinkIter atol rtol f y t (k + 1) h
      = shrinkIter atol rtol f y t k (shrinkOnce atol rtol f y t h) := by
  unfold shrinkIter
  exact Function.iterate_succ_apply _ _ _

theorem shrinkIter_succ' (atol rtol : ℚ) (f : Vec → ℚ → Vec) (y : Vec) (t h : ℚ) (k : Nat) :
    shrinkIter atol rtol f y t (k + 1) h
      = shrinkOnce atol rtol f y t (shrinkIter atol rtol f y t k h) := by
  unfold shrinkIter
  exact Function.iterate_succ_apply' _ _ _

theorem neededFuel_pos (hMin h : ℚ) : 0 < neededFuel hMin h := by
  unfold neededFuel
  omega

theorem neededFuel_decrease (atol rtol hMin : ℚ) (f : Vec → ℚ → Vec) (y : Vec) (t h : ℚ)
    (hm : 0 < hMin) (hge : hMin ≤ h) (hE : 1 < stepError atol rtol f y t h) :
    neededFuel hMin (shrinkOnce atol rtol f y t h) + 1 ≤ neededFuel hMin h := by
  have hh : 0 < h := lt_of_lt_of_le hm hge
  obtain ⟨hle, hpos⟩ := shrinkOnce_le atol rtol f y t h hE hh
  set h' := shrinkOnce atol rtol f y t h with hh'
  have hx : (1 : ℚ) ≤ h / hMin := (one_le_div hm).2 hge
  have hmono : (20 : ℚ) * h' / hMin ≤ 18 * h / hMin := by
    rw [div_le_div_iff_of_pos_right hm]
    linarith
  have hca : (⌈(20 : ℚ) * h' / hMin⌉ : ℤ) ≤ ⌈(18 : ℚ) * h / hMin⌉ := Int.ceil_le_ceil hmono
  have hcb : (⌈(18 : ℚ) * h / hMin⌉ : ℚ) < 18 * h / hMin + 1 := Int.ceil_lt_add_one _
  have hcc : (20 : ℚ) * h / hMin ≤ (⌈(20 : ℚ) * h / hMin⌉ : ℚ) := Int.le_ceil _
  have ha18 : (18 : ℤ) ≤ ⌈(18 : ℚ) * h / hMin⌉ := by
    have h18 : (18 : ℚ) ≤ 18 * h / hMin := by
      rw [mul_div_assoc]
      nlinarith
    calc (18 : ℤ) = ⌈(18 : ℚ)⌉ := by norm_num
      _ ≤ _ := Int.ceil_le_ceil h18
  have hq : (⌈(18 : ℚ) * h / hMin⌉ : ℚ) + 1 < (⌈(20 : ℚ) * h / hMin⌉ : ℚ) := by
    ring_nf at hcb hcc hx ⊢
    linarith
  have hgap : (⌈(18 : ℚ) * h / hMin⌉ : ℤ) + 2 ≤ ⌈(20 : ℚ) * h / hMin⌉ := by
    have hz : (⌈(18 : ℚ) * h / hMin⌉ : ℤ) + 1 < ⌈(20 : ℚ) * h / hMin⌉ := by
      exact_mod_cast hq
    omega
  unfold neededFuel
  omega

theorem tryStep_underflow_of_trace (atol rtol hMin : ℚ) (f : Vec → ℚ → Vec) (y : Vec) (t : ℚ) :
    ∀ k fuel h, k ≤ fuel →
      (∀ j < k, hMin ≤ shrinkIter atol rtol f y t j h
        ∧ 1 < stepError atol rtol f y t (shrinkIter atol rtol f y t j h)) →
      shrinkIter atol rtol f y t k h < hMin →
      tryStep atol rtol hMin f y t fuel h = .error .stepSizeUnderflow := by
  intro k
  induction k with
  | zero =>
    intro fuel h _ _ hlt
    rw [shrinkIter_zero] at hlt
    cases fuel with
    | zero => simp only [tryStep]
    | succ fuel =>
      simp only [tryStep]
      rw [if_pos hlt]
  | succ k ih =>
    intro fuel h hkf htrace hlt
    obtain ⟨hge0, hE0⟩ := htrace 0 (Nat.succ_pos _)
    rw [shrinkIter_zero] at hge0 hE0
    cases fuel with
    | zero => exact absurd hkf (by omega)
    | succ fuel =>
      simp only [tryStep]
      rw [if_neg (not_lt.2 hge0), if_neg (by push_neg; exact hE0)]
      apply ih fuel _ (by omega)
      · intro j hj
        have := htrace (j + 1) (by omega)
        rw [shrinkIter_succ] at this
        exact this
      · rw [← shrinkIter_succ]
        exact hlt

theorem tryStep_trace_of_underflow (atol rtol hMin : ℚ) (f : Vec → ℚ → Vec) (y : Vec) (t : ℚ)
    (hm : 0 < hMin) :
    ∀ fuel h, 0 < h → neededFuel hMin h ≤ fuel →
      tryStep atol rtol hMin f y t fuel h = .error .stepSizeUnderflow →
      ∃ k, (∀ j < k, hMin ≤ shrinkIter atol rtol f y t j h
              ∧ 1 < stepError atol rtol f y t (shrinkIter atol rtol f y t j h))
        ∧ shrinkIter atol rtol f y t k h < hMin := by
  intro fuel
  induction fuel with
  | zero =>
    intro h _ hf _
    exact absurd hf (by have := neededFuel_pos hMin h; omega)
  | succ fuel ih =>
    intro h hh hf heq
    simp only [tryStep] at heq
    by_cases h1 : h < hMin
    · exact ⟨0, fun j hj => absurd hj (Nat.not_lt_zero _), by rwa [shrinkIter_zero]⟩
    · rw [if_neg h1] at heq
      by_cases h2 : stepError atol rtol f y t h ≤ 1
      · rw [if_pos h2] at heq
        cases heq
      · rw [if_neg h2] at heq
        push_neg at h2
        have hge : hMin ≤ h := le_of_not_lt h1
        have hdec := neededFuel_decrease atol rtol hMin f y t h hm hge h2
        have hpos := (shrinkOnce_le atol rtol f y t h h2 hh).2
        obtain ⟨k, htr, hlt⟩ := ih _ hpos (by omega) heq
        refine ⟨k + 1, ?_, ?_⟩
        · intro j hj
          cases j with
          | zero =>
            rw [shrinkIter_zero]
            exact ⟨hge, h2⟩
          | succ j =>
            rw [shrinkIter_succ]
            exact htr j (by omega)
        · rw [shrinkIter_succ]
          exact hlt

theorem shrinkIter_decay (atol rtol hMin : ℚ) (f : Vec → ℚ → Vec) (y : Vec) (t : ℚ) :
    ∀ k h, 0 < h →
      (∀ j < k, hMin ≤ shrinkIter atol rtol f y t j h
        ∧ 1 < stepError atol rtol f y t (shrinkIter atol rtol f y t j h)) →
      shrinkIter atol rtol f y t k h ≤ (9 / 10) ^ k * h
        ∧ 0 < shrinkIter atol rtol f y t k h := by
  intro k
  induction k with
  | zero =>
    intro h hh _
    rw [shrinkIter_zero]
    constructor
    · simp
    · exact hh
  | succ k ih =>
    intro h hh htrace
    obtain ⟨hdk, hpk⟩ := ih h hh (fun j hj => htrace j (by omega))
    obtain ⟨hgek, hEk⟩ := htrace k (by omega)
    have hs := shrinkOnce_le atol rtol f y t _ hEk hpk
    rw [shrinkIter_succ']
    constructor
    · have hp : (0 : ℚ) ≤ (9 / 10 : ℚ) ^ k := by positivity
      calc shrinkOnce atol rtol f y t (shrinkIter atol rtol f y t k h)
          ≤ 9 / 10 * shrinkIter atol rtol f y t k h := hs.1
        _ ≤ 9 / 10 * ((9 / 10) ^ k * h) := by nlinarith
        _ = (9 / 10) ^ (k + 1) * h := by ring
    · exact hs.2

theorem trace_le_neededFuel (atol rtol hMin : ℚ) (f : Vec → ℚ → Vec) (y : Vec) (t : ℚ)
    (hm : 0 < hMin) :
    ∀ k h, 0 < h →
      (∀ j < k, hMin ≤ shrinkIter atol rtol f y t j h
        ∧ 1 < stepError atol rtol f y t (shrinkIter atol rtol f y t j h)) →
      k ≤ neededFuel hMin h := by
  intro k
  cases k with
  | zero =>
    intro h _ _
    exact Nat.zero_le _
  | succ k =>
    intro h hh htrace
    obtain ⟨hdk, _⟩ := shrinkIter_decay atol rtol hMin f y t k h hh
      (fun j hj => htrace j (by omega))
    obtain ⟨hgek, _⟩ := htrace k (by omega)
    have hc : hMin ≤ (9 / 10 : ℚ) ^ k * h := le_trans hgek hdk
    have hber : (1 : ℚ) + (k : ℚ) * (1 / 9) ≤ (10 / 9) ^ k := by
      have := one_add_mul_le_pow (a := (1 / 9 : ℚ)) (by norm_num) k
      calc (1 : ℚ) + (k : ℚ) * (1 / 9) = 1 + (k : ℚ) * (1 / 9) := rfl
        _ ≤ (1 + 1 / 9) ^ k := this
        _ = (10 / 9) ^ k := by norm_num
    have hcd : (9 / 10 : ℚ) ^ k * (10 / 9) ^ k = 1 := by
      rw [← mul_pow]
      norm_num
    have hdpos : (0 : ℚ) < (10 / 9) ^ k := by positivity
    have hmd : hMin * (10 / 9) ^ k ≤ h := by
      calc hMin * (10 / 9) ^ k ≤ ((9 / 10) ^ k * h) * (10 / 9) ^ k := by nlinarith
        _ = ((9 / 10) ^ k * (10 / 9) ^ k) * h := by ring
        _ = h := by rw [hcd]; ring
    have hkq : ((k : ℚ) + 1) ≤ 20 * h / hMin := by
      rw [le_div_iff hm]
      have h1 : hMin * (1 + (k : ℚ) * (1 / 9)) ≤ h := by nlinarith
      nlinarith
    have hkz : ((k : ℤ) + 1) ≤ ⌈(20 : ℚ) * h / hMin⌉ := by
      have : ((k : ℚ) + 1) ≤ (⌈(20 : ℚ) * h / hMin⌉ : ℚ) := le_trans hkq (Int.le_ceil _)
      exact_mod_cast this
    unfold neededFuel
    omega

theorem tryStep_underflow_iff (atol rtol hMin : ℚ) (f : Vec → ℚ → Vec) (y : Vec) (t : ℚ)
    (hm : 0 < hMin) (h : ℚ) (hh : 0 < h) :
    tryStep atol rtol hMin f y t (neededFuel hMin h) h = .error .stepSizeUnderflow
      ↔ ∃ k, (∀ j < k, hMin ≤ shrinkIter atol rtol f y t j h
                ∧ 1 < stepError atol rtol f y t (shrinkIter atol rtol f y t j h))
          ∧ shrinkIter atol rtol f y t k h < hMin := by
  constructor
  · intro heq
    exact tryStep_trace_of_underflow atol rtol hMin f y t hm _ h hh (le_refl _) heq
  · rintro ⟨k, htr, hlt⟩
    exact tryStep_underflow_of_trace atol rtol hMin f y t k _ h
      (trace_le_neededFuel atol rtol hMin f y t hm k h hh htr) htr hlt

/-! ### Lemmas on event localization and selection -/

theorem bisect_bounds (g : ℚ → ℚ) :
    ∀ n lo hi, lo < hi → lo < (bisect g lo hi n).2 ∧ (bisect g lo hi n).2 ≤ hi := by
  intro n
  induction n with
  | zero =>
    intro lo hi hlt
    exact ⟨hlt, le_refl _⟩
  | succ n ih =>
    intro lo hi hlt
    simp only [bisect]
    have hmid1 : lo < (lo + hi) / 2 := by linarith
    have hmid2 : (lo + hi) / 2 < hi := by linarith
    by_cases htest : g lo * g ((lo + hi) / 2) ≤ 0
    · rw [if_pos htest]
      obtain ⟨ha, hb⟩ := ih lo ((lo + hi) / 2) hmid1
      exact ⟨ha, le_trans hb (le_of_lt hmid2)⟩
    · rw [if_neg htest]
      obtain ⟨ha, hb⟩ := ih ((lo + hi) / 2) hi hmid2
      exact ⟨lt_trans hmid1 ha, hb⟩

theorem crossTime_bounds (e : EventFn) (t0 t1 : ℚ) (y0 y1 : Vec) (n : Nat)
    (hlt : t0 < t1) :
    t0 < crossTime e t0 t1 y0 y1 n ∧ crossTime e t0 t1 y0 y1 n ≤ t1 :=
  bisect_bounds (eventG e t0 t1 y0 y1) n t0 t1 hlt

theorem trigList_sound (t0 t1 : ℚ) (y0 y1 : Vec) (nB : Nat) :
    ∀ es i tr, tr ∈ trigList t0 t1 y0 y1 nB i es →
      ∃ j e, es.get? j = some e
        ∧ tr = ⟨i + j, e, crossTime e t0 t1 y0 y1 nB⟩
        ∧ checkTrigger e (eventG e t0 t1 y0 y1 t0) (eventG e t0 t1 y0 y1 t1) = true := by
  intro es
  induction es with
  | nil =>
    intro i tr htr
    simp [trigList] at htr
  | cons e es ih =>
    intro i tr htr
    simp only [trigList] at htr
    by_cases hc : checkTrigger e (eventG e t0 t1 y0 y1 t0) (eventG e t0 t1 y0 y1 t1) = true
    · rw [if_pos hc] at htr
      rcases List.mem_cons.1 htr with heq | hmem
      · exact ⟨0, e, rfl, by simpa using heq, hc⟩
      · obtain ⟨j, e', hget, htr', hc'⟩ := ih (i + 1) tr hmem
        exact ⟨j + 1, e', by simpa using hget, by rw [htr']; congr 1; omega, hc'⟩
    · rw [if_neg hc] at htr
      obtain ⟨j, e', hget, htr', hc'⟩ := ih (i + 1) tr htr
      exact ⟨j + 1, e', by simpa using hget, by rw [htr']; congr 1; omega, hc'⟩

theorem trigList_complete (t0 t1 : ℚ) (y0 y1 : Vec) (nB : Nat) :
    ∀ es i j e, es.get? j = some e →
      checkTrigger e (eventG e t0 t1 y0 y1 t0) (eventG e t0 t1 y0 y1 t1) = true →
      (⟨i + j, e, crossTime e t0 t1 y0 y1 nB⟩ : Trigger) ∈ trigList t0 t1 y0 y1 nB i es := by
  intro es
  induction es with
  | nil =>
    intro i j e hget _
    simp at hget
  | cons e0 es ih =>
    intro i j e hget hc
    simp only [trigList]
    cases j with
    | zero =>
      simp at hget
      subst hget
      rw [if_pos hc]
      exact List.mem_cons_self _ _
    | succ j =>
      simp only [List.get?_cons_succ] at hget
      have hmem := ih (i + 1) j e hget hc
      have hidx : i + 1 + j = i + (j + 1) := by omega
      rw [hidx] at hmem
      by_cases hc0 : checkTrigger e0 (eventG e0 t0 t1 y0 y1 t0) (eventG e0 t0 t1 y0 y1 t1) = true
      · rw [if_pos hc0]
        exact List.mem_cons_of_mem _ hmem
      · rw [if_neg hc0]
        exact hmem

theorem trigList_idx_ge (t0 t1 : ℚ) (y0 y1 : Vec) (nB : Nat) :
    ∀ es i tr, tr ∈ trigList t0 t1 y0 y1 nB i es → i ≤ tr.idx := by
  intro es i tr htr
  obtain ⟨j, e, _, htr', _⟩ := trigList_sound t0 t1 y0 y1 nB es i tr htr
  rw [htr']
  exact Nat.le_add_right i j

theorem trigList_pairwise (t0 t1 : ℚ) (y0 y1 : Vec) (nB : Nat) :
    ∀ es i, List.Pairwise (fun a b : Trigger => a.idx < b.idx) (trigList t0 t1 y0 y1 nB i es) := by
  intro es
  induction es with
  | nil =>
    intro i
    simp [trigList]
  | cons e es ih =>
    intro i
    simp only [trigList]
    by_cases hc : checkTrigger e (eventG e t0 t1 y0 y1 t0) (eventG e t0 t1 y0 y1 t1) = true
    · rw [if_pos hc]
      refine List.Pairwise.cons ?_ (ih (i + 1))
      intro tr htr
      have := trigList_idx_ge t0 t1 y0 y1 nB es (i + 1) tr htr
      simp only
      omega
    · rw [if_neg hc]
      exact ih (i + 1)

theorem selectWinner_mem : ∀ (l : List Trigger) (w : Trigger),
    selectWinner l = some w → w ∈ l := by
  intro l
  induction l with
  | nil =>
    intro w hw
    simp [selectWinner] at hw
  | cons c rest ih =>
    intro w hw
    simp only [selectWinner] at hw
    cases hrest : selectWinner rest with
    | none =>
      rw [hrest] at hw
      simp only [] at hw
      cases hw
      exact List.mem_cons_self _ _
    | some b =>
      rw [hrest] at hw
      simp only [] at hw
      by_cases hlt : b.tCross < c.tCross
      · rw [if_pos hlt] at hw
        cases hw
        exact List.mem_cons_of_mem _ (ih _ hrest)
      · rw [if_neg hlt] at hw
        cases hw
        exact List.mem_cons_self _ _

theorem selectWinner_isSome : ∀ (c : Trigger) (rest : List Trigger),
    ∃ w, selectWinner (c :: rest) = some w := by
  intro c rest
  simp only [selectWinner]
  cases selectWinner rest with
  | none => exact ⟨c, rfl⟩
  | some b =>
    simp only []
    by_cases hlt : b.tCross < c.tCross
    · rw [if_pos hlt]
      exact ⟨b, rfl⟩
    · rw [if_neg hlt]
      exact ⟨c, rfl⟩

theorem selectWinner_spec : ∀ (l : List Trigger) (w : Trigger),
    List.Pairwise (fun a b : Trigger => a.idx < b.idx) l →
    selectWinner l = some w →
    w ∈ l ∧ ∀ x ∈ l, w.tCross ≤ x.tCross ∧ (x.tCross = w.tCross → w.idx ≤ x.idx) := by
  intro l
  induction l with
  | nil =>
    intro w _ hw
    simp [selectWinner] at hw
  | cons c rest ih =>
    intro w hpw hw
    simp only [selectWinner] at hw
    cases hrest : selectWinner rest with
    | none =>
      rw [hrest] at hw
      simp only [] at hw
      cases hw
      have hempty : rest = [] := by
        cases rest with
        | nil => rfl
        | cons a l =>
          obtain ⟨w', hw'⟩ := selectWinner_isSome a l
          rw [hw'] at hrest
          cases hrest
      subst hempty
      refine ⟨List.mem_cons_self _ _, ?_⟩
      intro x hx
      rcases List.mem_cons.1 hx with heq | hmem
      · subst heq
        exact ⟨le_refl _, fun _ => le_refl _⟩
      · simp at hmem
    | some b =>
      rw [hrest] at hw
      simp only [] at hw
      obtain ⟨hbmem, hbmin⟩ := ih b (List.Pairwise.of_cons hpw) hrest
      by_cases hlt : b.tCross < c.tCross
      · rw [if_pos hlt] at hw
        cases hw
        refine ⟨List.mem_cons_of_mem _ hbmem, ?_⟩
        intro x hx
        rcases List.mem_cons.1 hx with heq | hmem
        · subst heq
          exact ⟨le_of_lt hlt, fun hx' => absurd hx' (by intro hc; rw [hc] at hlt; exact lt_irrefl _ hlt)⟩
        · exact hbmin x hmem
      · rw [if_neg hlt] at hw
        cases hw
        push_neg at hlt
        refine ⟨List.mem_cons_self _ _, ?_⟩
        intro x hx
        rcases List.mem_cons.1 hx with heq | hmem
        · subst heq
          exact ⟨le_refl _, fun _ => le_refl _⟩
        · have hx1 := (hbmin x hmem).1
          refine ⟨le_trans hlt hx1, fun hx' => ?_⟩
          have := (List.pairwise_cons.1 hpw).1 x hmem
          omega

/-! ### The main loop invariant -/

/-- A well-formed event record: it names a configured event whose direction
filter genuinely passed on the record's step bracket, and its crossing time
is the localized root on that bracket. -/
def RecordOK (o : Options) (rec : EventRecord) : Prop :=
  ∃ e, o.events.get? rec.idx = some e
    ∧ checkTrigger e (eventG e rec.t0 rec.t1 rec.y0 rec.y1 rec.t0)
        (eventG e rec.t0 rec.t1 rec.y0 rec.y1 rec.t1) = true
    ∧ rec.tCross = crossTime e rec.t0 rec.t1 rec.y0 rec.y1 o.nBisect

/-- Completeness of the recording on one accepted step `p -> q`: every
configured event whose trigger test passes on that step has its record in
`recs`. -/
def QRec (o : Options) (recs : List EventRecord) (p q : ℚ × Vec) : Prop :=
  ∀ i e, o.events.get? i = some e →
    checkTrigger e (eventG e p.1 q.1 p.2 q.2 p.1) (eventG e p.1 q.1 p.2 q.2 q.1) = true →
    (⟨i, crossTime e p.1 q.1 p.2 q.2 o.nBisect, p.1, q.1, p.2, q.2⟩ : EventRecord) ∈ recs

/-- What holds of a run stopped by a terminal event: the stop diagnostic
names the event, the trajectory's last sample is exactly the interpolated
crossing time and the dense-output state there, the crossing time is the
localized root of that (terminal, genuinely triggered) event inside the
enclosing accepted step, and no trajectory sample lies beyond it. -/
def StopP (o : Options) (r : RunResult) (i : Nat) (te : ℚ) : Prop :=
  ∃ si : StopInfo, r.eventStop = some si ∧ si.idx = i ∧ si.tEvent = te
    ∧ r.traj.getLast? = some (si.tEvent, si.yEvent)
    ∧ si.yEvent = denseEval si.t0 si.t1 si.y0 si.y1 si.tEvent
    ∧ (∃ e, o.events.get? si.idx = some e ∧ e.terminal = true
         ∧ si.tEvent = crossTime e si.t0 si.t1 si.y0 si.y1 o.nBisect
         ∧ checkTrigger e (eventG e si.t0 si.t1 si.y0 si.y1 si.t0)
             (eventG e si.t0 si.t1 si.y0 si.y1 si.t1) = true)
    ∧ si.t0 < si.tEvent ∧ si.tEvent ≤ si.t1
    ∧ (∀ p ∈ r.traj, (p : ℚ × Vec).1 ≤ te)

/-- The conjunction of run-level guarantees established by induction over
the main loop: the accumulated trajectory and records are only extended;
trajectory times increase strictly, by at most `max_step` per step; the
loop never reports an invalid span; a stopped-by-event status carries the
full `StopP` diagnostic; a completed run recorded every triggered event of
every accepted step; and every record is well-formed. -/
def MasterP (o : Options) (r : RunResult) (traj : List (ℚ × Vec))
    (recs : List EventRecord) : Prop :=
  (∃ s, r.traj = traj ++ s)
  ∧ (∃ s, r.records = recs ++ s)
  ∧ List.Chain' (fun p q : ℚ × Vec => p.1 < q.1) r.traj
  ∧ List.Chain' (fun p q : ℚ × Vec => q.1 - p.1 ≤ o.maxStep) r.traj
  ∧ r.status ≠ .failed .invalidSpan
  ∧ (∀ i te, r.status = .stoppedByEvent i te → StopP o r i te)
  ∧ (r.status = .completed → List.Chain' (QRec o r.records) r.traj)
  ∧ (∀ rec ∈ r.records, RecordOK o rec)
  ∧ (∀ si, r.eventStop = some si → r.status = .stoppedByEvent si.idx si.tEvent)

theorem chain'_concat_of_last {α : Type} {R : α → α → Prop} {l : List α} {a x : α}
    (hc : List.Chain' R l) (hl : l.getLast? = some a) (hR : R a x) :
    List.Chain' R (l ++ [x]) := by
  refine List.Chain'.append hc (List.chain'_singleton _) ?_
  intro p hp q hq
  rw [hl] at hp
  rw [Option.mem_some_iff] at hp
  simp only [List.head?_cons, Option.mem_some_iff] at hq
  subst hp
  subst hq
  exact hR

theorem loop_master (f : Vec → ℚ → Vec) (o : Options) (tEnd : ℚ) (hv : o.Valid) :
    ∀ (fuel : Nat) (t : ℚ) (y : Vec) (h : ℚ) (traj : List (ℚ × Vec))
      (recs : List EventRecord),
      traj.getLast? = some (t, y) →
      List.Chain' (fun p q : ℚ × Vec => p.1 < q.1) traj →
      List.Chain' (fun p q : ℚ × Vec => q.1 - p.1 ≤ o.maxStep) traj →
      (∀ p ∈ traj, (p : ℚ × Vec).1 ≤ t) →
      0 < h →
      List.Chain' (QRec o recs) traj →
      (∀ rec ∈ recs, RecordOK o rec) →
      MasterP o (loop f o tEnd fuel t y h traj recs) traj recs := by
  intro fuel
  induction fuel with
  | zero =>
    intro t y h traj recs h1 h2 h3 h4 hpos h6 h7
    simp only [loop]
    exact ⟨⟨[], by simp⟩, ⟨[], by simp⟩, h2, h3, by simp, by simp, by simp, h7, by simp⟩
  | succ fuel ih =>
    intro t y h traj recs h1 h2 h3 h4 hpos h6 h7
    simp only [loop]
    by_cases hend : tEnd ≤ t
    · rw [if_pos hend]
      exact ⟨⟨[], by simp⟩, ⟨[], by simp⟩, h2, h3, by simp, by simp,
        fun _ => h6, h7, by simp⟩
    · rw [if_neg hend]
      split
      next e heq =>
        have hek := tryStep_error_kind o.atol o.rtol o.hMin f y t _ _ _ heq
        subst hek
        exact ⟨⟨[], by simp⟩, ⟨[], by simp⟩, h2, h3, by simp, by simp, by simp, h7, by simp⟩
      next st heq =>
        have hm : 0 < o.hMin := hv.1
        have hstge : o.hMin ≤ st.h := tryStep_ok_h_ge o.atol o.rtol o.hMin f y t _ _ _ heq
        have hstpos : 0 < st.h := lt_of_lt_of_le hm hstge
        have hstle : st.h ≤ min (min h (tEnd - t)) o.maxStep :=
          tryStep_ok_h_le o.atol o.rtol o.hMin f y t hm _ _ _ heq
        have hstmax : st.h ≤ o.maxStep := le_trans hstle (min_le_right _ _)
        have ht1 : t < t + st.h := by linarith
        split
        next w hw =>
          have hwmem := selectWinner_mem _ _ hw
          have hfil := List.mem_filter.1 hwmem
          obtain ⟨j, e, hget, hweq, hcheck⟩ :=
            trigList_sound t (t + st.h) y st.yNew o.nBisect o.events 0 w hfil.1
          rw [Nat.zero_add] at hweq
          have hterm : e.terminal = true := by
            have := hfil.2
            rw [hweq] at this
            exact this
          have hwidx : w.idx = j := by rw [hweq]
          have hwev : w.ev = e := by rw [hweq]
          have hwt : w.tCross = crossTime e t (t + st.h) y st.yNew o.nBisect := by rw [hweq]
          have htb := crossTime_bounds e t (t + st.h) y st.yNew o.nBisect ht1
          have htlt : t < w.tCross := by rw [hwt]; exact htb.1
          have htle : w.tCross ≤ t + st.h := by rw [hwt]; exact htb.2
          refine ⟨⟨_, rfl⟩, ⟨_, rfl⟩, ?_, ?_, by simp, ?_, by simp, ?_, ?_⟩
          · exact chain'_concat_of_last h2 h1 htlt
          · refine chain'_concat_of_last h3 h1 ?_
            show w.tCross - t ≤ o.maxStep
            linarith
          · intro i te hstat
            simp only [Status.stoppedByEvent.injEq] at hstat
            obtain ⟨hi, hte⟩ := hstat
            refine ⟨⟨w.idx, w.tCross, denseEval t (t + st.h) y st.yNew w.tCross,
                t, t + st.h, y, st.yNew⟩, rfl, hi, hte, ?_, rfl, ?_, htlt, htle, ?_⟩
            · exact List.getLast?_concat _
            · refine ⟨e, ?_, hterm, hwt, hcheck⟩
              rw [hwidx]
              exact hget
            · intro p hp
              rcases List.mem_append.1 hp with hmem | hmem
              · have := h4 p hmem
                rw [← hte]
                have hple : p.1 ≤ t := this
                exact le_trans hple (le_of_lt htlt)
              · simp only [List.mem_singleton] at hmem
                subst hmem
                rw [← hte]
          · intro rec hrec
            rcases List.mem_append.1 hrec with hmem | hmem
            · exact h7 rec hmem
            · obtain ⟨tr, htrmem, hrec'⟩ := List.mem_map.1 hmem
              obtain ⟨j', e', hget', htr', hc'⟩ :=
                trigList_sound t (t + st.h) y st.yNew o.nBisect o.events 0 tr
                  (List.mem_filter.1 htrmem).1
              rw [Nat.zero_add] at htr'
              refine ⟨e', ?_, ?_, ?_⟩
              · rw [← hrec', htr']
                exact hget'
              · rw [← hrec']
                simp only [mkRecord]
                exact hc'
              · rw [← hrec', htr']
                simp only [mkRecord]
          · intro si hsi
            have hsi' := Option.some.inj hsi
            subst hsi'
            rfl
        next hw =>
          have h1' : (traj ++ [(t + st.h, st.yNew)]).getLast? = some (t + st.h, st.yNew) :=
            List.getLast?_concat _
          have h2' : List.Chain' (fun p q : ℚ × Vec => p.1 < q.1)
              (traj ++ [(t + st.h, st.yNew)]) := by
            refine chain'_concat_of_last h2 h1 ?_
            exact ht1
          have h3' : List.Chain' (fun p q : ℚ × Vec => q.1 - p.1 ≤ o.maxStep)
              (traj ++ [(t + st.h, st.yNew)]) := by
            refine chain'_concat_of_last h3 h1 ?_
            show t + st.h - t ≤ o.maxStep
            linarith
          have h4' : ∀ p ∈ traj ++ [(t + st.h, st.yNew)], (p : ℚ × Vec).1 ≤ t + st.h := by
            intro p hp
            rcases List.mem_append.1 hp with hmem | hmem
            · have := h4 p hmem
              linarith
            · simp only [List.mem_singleton] at hmem
              subst hmem
              exact le_refl _
          have hpos' : 0 < st.h * stepFactor (stepError o.atol o.rtol f y t st.h) :=
            mul_pos hstpos (stepFactor_pos _)
          have h6' : List.Chain'
              (QRec o (recs ++ List.map (mkRecord t (t + st.h) y st.yNew)
                (trigList t (t + st.h) y st.yNew o.nBisect 0 o.events)))
              (traj ++ [(t + st.h, st.yNew)]) := by
            refine chain'_concat_of_last (h6.imp ?_) h1 ?_
            · intro a b hq
              intro i e hget hcheck
              exact List.mem_append_left _ (hq i e hget hcheck)
            · intro i e hget hcheck
              refine List.mem_append_right _ ?_
              have hmem := trigList_complete t (t + st.h) y st.yNew o.nBisect o.events 0 i e
                hget hcheck
              rw [Nat.zero_add] at hmem
              exact List.mem_map.2 ⟨_, hmem, rfl⟩
          have h7' : ∀ rec ∈ recs ++ List.map (mkRecord t (t + st.h) y st.yNew)
              (trigList t (t + st.h) y st.yNew o.nBisect 0 o.events), RecordOK o rec := by
            intro rec hrec
            rcases List.mem_append.1 hrec with hmem | hmem
            · exact h7 rec hmem
            · obtain ⟨tr, htrmem, hrec'⟩ := List.mem_map.1 hmem
              obtain ⟨j', e', hget', htr', hc'⟩ :=
                trigList_sound t (t + st.h) y st.yNew o.nBisect o.events 0 tr htrmem
              rw [Nat.zero_add] at htr'
              refine ⟨e', ?_, ?_, ?_⟩
              · rw [← hrec', htr']
                exact hget'
              · rw [← hrec']
                simp only [mkRecord]
                exact hc'
              · rw [← hrec', htr']
                simp only [mkRecord]
          obtain ⟨⟨s1, hs1⟩, ⟨s2, hs2⟩, hc3, hc4, hc5, hc6, hc7, hc8, hc9⟩ :=
            ih (t + st.h) st.yNew _ _ _ h1' h2' h3' h4' hpos' h6' h7'
          refine ⟨⟨(t + st.h, st.yNew) :: s1, ?_⟩,
            ⟨List.map (mkRecord t (t + st.h) y st.yNew)
              (trigList t (t + st.h) y st.yNew o.nBisect 0 o.events) ++ s2, ?_⟩,
            hc3, hc4, hc5, hc6, hc7, hc8, hc9⟩
          · rw [hs1, List.append_assoc]
            rfl
          · rw [hs2, List.append_assoc]


theorem loop_status_ne_invalid (f : Vec → ℚ → Vec) (o : Options) (tEnd : ℚ) :
    ∀ fuel t y h traj recs,
      (loop f o tEnd fuel t y h traj recs).status ≠ .failed .invalidSpan := by
  intro fuel
  induction fuel with
  | zero =>
    intro t y h traj recs
    simp [loop]
  | succ fuel ih =>
    intro t y h traj recs
    simp only [loop]
    by_cases hend : tEnd ≤ t
    · rw [if_pos hend]
      simp
    · rw [if_neg hend]
      split
      next e heq =>
        have hek := tryStep_error_kind o.atol o.rtol o.hMin f y t _ _ _ heq
        subst hek
        simp
      next st heq =>
        split
        next w hw => simp
        next hw => exact ih _ _ _ _ _

theorem loop_traj_extends (f : Vec → ℚ → Vec) (o : Options) (tEnd : ℚ) :
    ∀ fuel t y h traj recs,
      ∃ s, (loop f o tEnd fuel t y h traj recs).traj = traj ++ s := by
  intro fuel
  induction fuel with
  | zero =>
    intro t y h traj recs
    exact ⟨[], by simp [loop]⟩
  | succ fuel ih =>
    intro t y h traj recs
    simp only [loop]
    by_cases hend : tEnd ≤ t
    · rw [if_pos hend]
      exact ⟨[], by simp⟩
    · rw [if_neg hend]
      split
      next e heq => exact ⟨[], by simp⟩
      next st heq =>
        split
        next w hw => exact ⟨_, rfl⟩
        next hw =>
          obtain ⟨s, hs⟩ := ih (t + st.h) st.yNew
            (st.h * stepFactor (stepError o.atol o.rtol f y t st.h))
            (traj ++ [(t + st.h, st.yNew)])
            (recs ++ List.map (mkRecord t (t + st.h) y st.yNew)
              (trigList t (t + st.h) y st.yNew o.nBisect 0 o.events))
          refine ⟨(t + st.h, st.yNew) :: s, ?_⟩
          rw [hs, List.append_assoc]
          rfl

theorem integrate_master (f : Vec → ℚ → Vec) (y0 : Vec) (ts te : ℚ) (o : Options)
    (hv : o.Valid) (hlt : ts < te) :
    MasterP o (integrate f y0 (.fin ts) (.fin te) o) [(ts, y0)] [] := by
  simp only [integrate]
  rw [if_pos hlt]
  refine loop_master f o te hv o.maxSteps ts y0 o.firstStep [(ts, y0)] [] rfl
    (List.chain'_singleton _) (List.chain'_singleton _) ?_
    (lt_of_lt_of_le hv.1 hv.2.1) (List.chain'_singleton _) ?_
  · intro p hp
    rw [List.mem_singleton] at hp
    subst hp
    exact le_refl _
  · intro rec hrec
    simp at hrec

/-! ### Concrete example inputs used by the witness runs -/

/-- A constant derivative function: one state component with slope one. -/
def exF : Vec → ℚ → Vec := fun _ _ => [1]

/-- A terminal event firing when the first state component reaches `1/2`. -/
def exEv : EventFn := ⟨fun y _ => y.headD 0 - 1 / 2, true, .either⟩

/-- Example options: unit step caps, tolerance `atol = 1`, floor `1/2`,
budget three accepted steps, one bisection refinement, one terminal
event. -/
def exOpts : Options := ⟨1, 1, 0, 1, 1 / 2, 3, 1, [exEv]⟩

/-- Example options without any events. -/
def exOptsPlain : Options := ⟨1, 1, 0, 1, 1 / 2, 3, 1, []⟩

/-- A non-terminal event firing when time reaches `1/2`. -/
def exEvA : EventFn := ⟨fun _ t => t - 1 / 2, false, .either⟩

/-! ## Part II claim theorems -/

/-- C1: whenever a run is stopped by a terminal event, the trajectory's
last sample is exactly the interpolated zero-crossing time of that event
and the dense-output interpolant evaluated there (not the enclosing
accepted step's endpoint), and conversely a recorded terminal stop forces
the stopped-by-event status. -/
theorem integrate_terminal_stop_exact (f : Vec → ℚ → Vec) (y0 : Vec) (a b : RFloat)
    (o : Options) (hv : o.Valid) :
    (∀ i te, (integrate f y0 a b o).status = .stoppedByEvent i te →
      StopP o (integrate f y0 a b o) i te)
    ∧ (∀ si, (integrate f y0 a b o).eventStop = some si →
        (integrate f y0 a b o).status = .stoppedByEvent si.idx si.tEvent) := by
  cases a with
  | fin ts =>
    cases b with
    | fin te' =>
      by_cases hlt : ts < te'
      · have hmp := integrate_master f y0 ts te' o hv hlt
        exact ⟨hmp.2.2.2.2.2.1, hmp.2.2.2.2.2.2.2.2⟩
      · constructor
        · intro i te hstat
          simp only [integrate] at hstat
          rw [if_neg hlt] at hstat
          cases hstat
        · intro si hsi
          simp only [integrate] at hsi
          rw [if_neg hlt] at hsi
          cases hsi
    | posInf =>
      exact ⟨fun i te hstat => by simp [integrate] at hstat,
        fun si hsi => by simp [integrate] at hsi⟩
    | negInf =>
      exact ⟨fun i te hstat => by simp [integrate] at hstat,
        fun si hsi => by simp [integrate] at hsi⟩
    | nan =>
      exact ⟨fun i te hstat => by simp [integrate] at hstat,
        fun si hsi => by simp [integrate] at hsi⟩
  | posInf =>
    exact ⟨fun i te hstat => by simp [integrate] at hstat,
      fun si hsi => by simp [integrate] at hsi⟩
  | negInf =>
    exact ⟨fun i te hstat => by simp [integrate] at hstat,
      fun si hsi => by simp [integrate] at hsi⟩
  | nan =>
    exact ⟨fun i te hstat => by simp [integrate] at hstat,
      fun si hsi => by simp [integrate] at hsi⟩

theorem integrate_terminal_stop_exact_witness :
    Options.Valid exOpts
    ∧ (integrate exF [0] (.fin 0) (.fin 1) exOpts).status = .stoppedByEvent 0 (1 / 2)
    ∧ StopP exOpts (integrate exF [0] (.fin 0) (.fin 1) exOpts) 0 (1 / 2) := by
  have hv : Options.Valid exOpts := by
    constructor
    · norm_num [exOpts]
    constructor
    · norm_num [exOpts]
    · norm_num [exOpts]
  have hstat : (integrate exF [0] (.fin 0) (.fin 1) exOpts).status
      = .stoppedByEvent 0 (1 / 2) := by
    norm_num [integrate, loop, tryStep, neededFuel, stepError, rkPair, errEst, vadd, vsub,
      vscale, shrinkOnce, stepFactor, trigList, selectWinner, checkTrigger, eventG, denseEval,
      crossTime, bisect, mkRecord, exF, exEv, exOpts]
  exact ⟨hv, hstat,
    (integrate_terminal_stop_exact exF [0] (.fin 0) (.fin 1) exOpts hv).1 0 (1 / 2) hstat⟩

/-- C2: for a valid call (well-formed options, finite span with
`t_start < t_end`), the trajectory's first sample is exactly
`(t_start, initial_state)` and its times are strictly increasing. -/
theorem integrate_first_sample_monotone (f : Vec → ℚ → Vec) (y0 : Vec) (ts te : ℚ)
    (o : Options) (hv : o.Valid) (hlt : ts < te) :
    (integrate f y0 (.fin ts) (.fin te) o).traj.head? = some (ts, y0)
    ∧ List.Chain' (fun p q : ℚ × Vec => p.1 < q.1)
        (integrate f y0 (.fin ts) (.fin te) o).traj := by
  have hmp := integrate_master f y0 ts te o hv hlt
  obtain ⟨⟨s, hs⟩, _, hc3, _⟩ := hmp
  constructor
  · rw [hs]
    rfl
  · exact hc3

theorem integrate_first_sample_monotone_witness :
    Options.Valid exOptsPlain ∧ (0 : ℚ) < 1
    ∧ ((integrate exF [0] (.fin 0) (.fin 1) exOptsPlain).traj.head? = some (0, [0])
        ∧ List.Chain' (fun p q : ℚ × Vec => p.1 < q.1)
            (integrate exF [0] (.fin 0) (.fin 1) exOptsPlain).traj) := by
  have hv : Options.Valid exOptsPlain := by
    refine ⟨?_, ?_, ?_⟩ <;> norm_num [exOptsPlain]
  exact ⟨hv, by norm_num,
    integrate_first_sample_monotone exF [0] 0 1 exOptsPlain hv (by norm_num)⟩

/-- C3: in a completed run every event crossing that passed the trigger
test on an accepted step is recorded (non-terminal events never truncate
the trajectory), while a run stopped by a terminal event has no
trajectory sample past the terminal crossing time, and the stopping event
is a configured terminal event. -/
theorem integrate_terminal_truncates_nonterminal_records (f : Vec → ℚ → Vec) (y0 : Vec)
    (a b : RFloat) (o : Options) (hv : o.Valid) :
    ((integrate f y0 a b o).status = .completed →
      List.Chain' (QRec o (integrate f y0 a b o).records) (integrate f y0 a b o).traj)
    ∧ (∀ i te, (integrate f y0 a b o).status = .stoppedByEvent i te →
        (∀ p ∈ (integrate f y0 a b o).traj, (p : ℚ × Vec).1 ≤ te)
        ∧ (∃ e, o.events.get? i = some e ∧ e.terminal = true)) := by
  cases a with
  | fin ts =>
    cases b with
    | fin te' =>
      by_cases hlt : ts < te'
      · have hmp := integrate_master f y0 ts te' o hv hlt
        refine ⟨hmp.2.2.2.2.2.2.1, ?_⟩
        intro i te hstat
        obtain ⟨si, _, hidx, hte, _, _, ⟨e, hget, hterm, _⟩, _, _, hall⟩ :=
          hmp.2.2.2.2.2.1 i te hstat
        exact ⟨hall, ⟨e, by rw [← hidx]; exact hget, hterm⟩⟩
      · constructor
        · intro hstat
          simp only [integrate] at hstat ⊢
          rw [if_neg hlt] at hstat
          cases hstat
        · intro i te hstat
          simp only [integrate] at hstat
          rw [if_neg hlt] at hstat
          cases hstat
    | posInf =>
      exact ⟨fun hstat => by simp [integrate] at hstat,
        fun i te hstat => by simp [integrate] at hstat⟩
    | negInf =>
      exact ⟨fun hstat => by simp [integrate] at hstat,
        fun i te hstat => by simp [integrate] at hstat⟩
    | nan =>
      exact ⟨fun hstat => by simp [integrate] at hstat,
        fun i te hstat => by simp [integrate] at hstat⟩
  | posInf =>
    exact ⟨fun hstat => by simp [integrate] at hstat,
      fun i te hstat => by simp [integrate] at hstat⟩
  | negInf =>
    exact ⟨fun hstat => by simp [integrate] at hstat,
      fun i te hstat => by simp [integrate] at hstat⟩
  | nan =>
    exact ⟨fun hstat => by simp [integrate] at hstat,
      fun i te hstat => by simp [integrate] at hstat⟩

theorem integrate_terminal_truncates_nonterminal_records_witness :
    Options.Valid exOpts
    ∧ (((integrate exF [0] (.fin 0) (.fin 1) exOpts).status = .completed →
          List.Chain' (QRec exOpts (integrate exF [0] (.fin 0) (.fin 1) exOpts).records)
            (integrate exF [0] (.fin 0) (.fin 1) exOpts).traj)
        ∧ (∀ i te, (integrate exF [0] (.fin 0) (.fin 1) exOpts).status
              = .stoppedByEvent i te →
            (∀ p ∈ (integrate exF [0] (.fin 0) (.fin 1) exOpts).traj,
              (p : ℚ × Vec).1 ≤ te)
            ∧ (∃ e, exOpts.events.get? i = some e ∧ e.terminal = true))) := by
  have hv : Options.Valid exOpts := by
    refine ⟨?_, ?_, ?_⟩ <;> norm_num [exOpts]
  exact ⟨hv,
    integrate_terminal_truncates_nonterminal_records exF [0] (.fin 0) (.fin 1) exOpts hv⟩

/-- C4: the direction filter is honoured — a rising-only event never
triggers on a falling crossing and symmetrically, an either-direction
event triggers exactly on a rising or falling crossing, and every event
record of every run was gated by the direction-filtered trigger test on
its accepted step. -/
theorem direction_filter_sound (o : Options) (f : Vec → ℚ → Vec) (y0 : Vec)
    (a b : RFloat) (hv : o.Valid) :
    (∀ e g0 g1, e.direction = .rising → fallingPattern g0 g1 →
      checkTrigger e g0 g1 = false)
    ∧ (∀ e g0 g1, e.direction = .falling → risingPattern g0 g1 →
        checkTrigger e g0 g1 = false)
    ∧ (∀ e g0 g1, e.direction = .rising →
        (checkTrigger e g0 g1 = true ↔ risingPattern g0 g1))
    ∧ (∀ e g0 g1, e.direction = .falling →
        (checkTrigger e g0 g1 = true ↔ fallingPattern g0 g1))
    ∧ (∀ e g0 g1, e.direction = .either →
        (checkTrigger e g0 g1 = true ↔ risingPattern g0 g1 ∨ fallingPattern g0 g1))
    ∧ (∀ rec ∈ (integrate f y0 a b o).records, RecordOK o rec) := by
  refine ⟨?_, ?_, ?_, ?_, ?_, ?_⟩
  · intro e g0 g1 hdir hpat
    have hng : ¬(g0 < 0) := by
      have := hpat.1
      linarith
    simp [checkTrigger, hdir, hng]
  · intro e g0 g1 hdir hpat
    have hng : ¬(0 < g0) := by
      have := hpat.1
      linarith
    simp [checkTrigger, hdir, hng]
  · intro e g0 g1 hdir
    simp [checkTrigger, hdir, risingPattern]
  · intro e g0 g1 hdir
    simp [checkTrigger, hdir, fallingPattern]
  · intro e g0 g1 hdir
    simp [checkTrigger, hdir, risingPattern, fallingPattern]
  · cases a with
    | fin ts =>
      cases b with
      | fin te' =>
        by_cases hlt : ts < te'
        · exact (integrate_master f y0 ts te' o hv hlt).2.2.2.2.2.2.2.1
        · intro rec hrec
          simp only [integrate] at hrec
          rw [if_neg hlt] at hrec
          simp at hrec
      | posInf => intro rec hrec; simp [integrate] at hrec
      | negInf => intro rec hrec; simp [integrate] at hrec
      | nan => intro rec hrec; simp [integrate] at hrec
    | posInf => intro rec hrec; simp [integrate] at hrec
    | negInf => intro rec hrec; simp [integrate] at hrec
    | nan => intro rec hrec; simp [integrate] at hrec

theorem direction_filter_sound_witness :
    Options.Valid exOpts
    ∧ ((∀ e g0 g1, e.direction = .rising → fallingPattern g0 g1 →
          checkTrigger e g0 g1 = false)
        ∧ (∀ e g0 g1, e.direction = .falling → risingPattern g0 g1 →
            checkTrigger e g0 g1 = false)
        ∧ (∀ e g0 g1, e.direction = .rising →
            (checkTrigger e g0 g1 = true ↔ risingPattern g0 g1))
        ∧ (∀ e g0 g1, e.direction = .falling →
            (checkTrigger e g0 g1 = true ↔ fallingPattern g0 g1))
        ∧ (∀ e g0 g1, e.direction = .either →
            (checkTrigger e g0 g1 = true ↔ risingPattern g0 g1 ∨ fallingPattern g0 g1))
        ∧ (∀ rec ∈ (integrate exF [0] (.fin 0) (.fin 1) exOpts).records,
            RecordOK exOpts rec)) := by
  have hv : Options.Valid exOpts := by
    refine ⟨?_, ?_, ?_⟩ <;> norm_num [exOpts]
  exact ⟨hv, direction_filter_sound exOpts exF [0] (.fin 0) (.fin 1) hv⟩

/-- C5: among the events triggering on one accepted step, the selected
winner has the earliest localized crossing time, and on ties the event
with the lower index in the configured list is selected. -/
theorem event_resolution_earliest_lowest (t0 t1 : ℚ) (y0 y1 : Vec) (nB : Nat)
    (events : List EventFn) (w : Trigger)
    (hw : selectWinner (trigList t0 t1 y0 y1 nB 0 events) = some w) :
    w ∈ trigList t0 t1 y0 y1 nB 0 events
    ∧ ∀ x ∈ trigList t0 t1 y0 y1 nB 0 events,
        w.tCross ≤ x.tCross ∧ (x.tCross = w.tCross → w.idx ≤ x.idx) :=
  selectWinner_spec _ _ (trigList_pairwise t0 t1 y0 y1 nB events 0) hw

theorem event_resolution_earliest_lowest_witness :
    selectWinner (trigList 0 1 [0] [1] 1 0 [exEvA, exEvA])
        = some ⟨0, exEvA, 1 / 2⟩
    ∧ ((⟨0, exEvA, 1 / 2⟩ : Trigger) ∈ trigList 0 1 [0] [1] 1 0 [exEvA, exEvA]
        ∧ ∀ x ∈ trigList 0 1 [0] [1] 1 0 [exEvA, exEvA],
            (⟨0, exEvA, 1 / 2⟩ : Trigger).tCross ≤ x.tCross
            ∧ (x.tCross = (⟨0, exEvA, 1 / 2⟩ : Trigger).tCross →
                (⟨0, exEvA, 1 / 2⟩ : Trigger).idx ≤ x.idx)) := by
  have hw : selectWinner (trigList 0 1 [0] [1] 1 0 [exEvA, exEvA])
      = some ⟨0, exEvA, 1 / 2⟩ := by
    norm_num [trigList, selectWinner, checkTrigger, eventG, denseEval, crossTime, bisect,
      vadd, vsub, vscale, exEvA]
  exact ⟨hw, event_resolution_earliest_lowest 0 1 [0] [1] 1 [exEvA, exEvA] _ hw⟩

/-- C6: `integrate` reports an invalid span exactly when a bound is
non-finite or `t_start >= t_end` (zero-length spans included), and the
trajectory is empty exactly in that case (no samples are produced on the
error, and a valid call always produces the seeded first sample). -/
theorem integrate_invalid_span_iff (f : Vec → ℚ → Vec) (y0 : Vec) (a b : RFloat)
    (o : Options) :
    ((integrate f y0 a b o).status = .failed .invalidSpan
      ↔ ¬(a.isFinite = true ∧ b.isFinite = true ∧ a.val < b.val))
    ∧ ((integrate f y0 a b o).traj = []
      ↔ ¬(a.isFinite = true ∧ b.isFinite = true ∧ a.val < b.val)) := by
  cases a with
  | fin ts =>
    cases b with
    | fin te' =>
      by_cases hlt : ts < te'
      · constructor
        · simp only [integrate, RFloat.isFinite, RFloat.val]
          rw [if_pos hlt]
          simp only [loop_status_ne_invalid f o te' o.maxSteps ts y0 o.firstStep
            [(ts, y0)] [], false_iff]
          intro habs
          exact habs ⟨trivial, trivial, hlt⟩
        · simp only [integrate, RFloat.isFinite, RFloat.val]
          rw [if_pos hlt]
          obtain ⟨s, hs⟩ := loop_traj_extends f o te' o.maxSteps ts y0 o.firstStep
            [(ts, y0)] []
          rw [hs]
          simp only [List.cons_append, List.nil_append]
          constructor
          · intro habs
            cases habs
          · intro habs
            exact absurd ⟨trivial, trivial, hlt⟩ habs
      · constructor
        · simp only [integrate, RFloat.isFinite, RFloat.val]
          rw [if_neg hlt]
          simp [hlt]
        · simp only [integrate, RFloat.isFinite, RFloat.val]
          rw [if_neg hlt]
          simp [hlt]
    | posInf => simp [integrate, RFloat.isFinite, RFloat.val]
    | negInf => simp [integrate, RFloat.isFinite, RFloat.val]
    | nan => simp [integrate, RFloat.isFinite, RFloat.val]
  | posInf => simp [integrate, RFloat.isFinite, RFloat.val]
  | negInf => simp [integrate, RFloat.isFinite, RFloat.val]
  | nan => simp [integrate, RFloat.isFinite, RFloat.val]

/-- C7: the adaptive controller accepts a proposed step exactly when its
scaled error estimate satisfies `E <= 1` (and any accepted step satisfies
it); every step of every returned trajectory is at most `max_step` long;
and the acceptance loop fails with a step-size underflow exactly when
repeated power-law shrinkage drives the proposal below the minimum
representable step before any acceptable step is found. -/
theorem adaptive_step_control (o : Options) (f : Vec → ℚ → Vec) (hv : o.Valid) :
    (∀ y t fuel h st, tryStep o.atol o.rtol o.hMin f y t fuel h = .ok st →
        stepError o.atol o.rtol f y t st.h ≤ 1)
    ∧ (∀ y t fuel h, o.hMin ≤ h →
        (tryStep o.atol o.rtol o.hMin f y t (fuel + 1) h = .ok ⟨h, (rkPair f y t h).1⟩
          ↔ stepError o.atol o.rtol f y t h ≤ 1))
    ∧ (∀ y0 a b, List.Chain' (fun p q : ℚ × Vec => q.1 - p.1 ≤ o.maxStep)
        (integrate f y0 a b o).traj)
    ∧ (∀ y t h, 0 < h →
        (tryStep o.atol o.rtol o.hMin f y t (neededFuel o.hMin h) h
            = .error .stepSizeUnderflow
          ↔ ∃ k, (∀ j < k, o.hMin ≤ shrinkIter o.atol o.rtol f y t j h
                    ∧ 1 < stepError o.atol o.rtol f y t
                        (shrinkIter o.atol o.rtol f y t j h))
              ∧ shrinkIter o.atol o.rtol f y t k h < o.hMin)) := by
  refine ⟨?_, ?_, ?_, ?_⟩
  · intro y t fuel h st heq
    exact tryStep_ok_E o.atol o.rtol o.hMin f y t fuel h st heq
  · intro y t fuel h hge
    exact tryStep_accept_iff o.atol o.rtol o.hMin f y t hv.1 fuel h hge
  · intro y0 a b
    cases a with
    | fin ts =>
      cases b with
      | fin te' =>
        by_cases hlt : ts < te'
        · exact (integrate_master f y0 ts te' o hv hlt).2.2.2.1
        · simp only [integrate]
          rw [if_neg hlt]
          exact List.chain'_nil
      | posInf => simp [integrate]
      | negInf => simp [integrate]
      | nan => simp [integrate]
    | posInf => simp [integrate]
    | negInf => simp [integrate]
    | nan => simp [integrate]
  · intro y t h hh
    exact tryStep_underflow_iff o.atol o.rtol o.hMin f y t hv.1 h hh

theorem adaptive_step_control_witness :
    Options.Valid exOpts
    ∧ exOpts.hMin ≤ 1 ∧ (0 : ℚ) < 1
    ∧ (tryStep exOpts.atol exOpts.rtol exOpts.hMin exF [0] 0 (0 + 1) 1
          = .ok ⟨1, (rkPair exF [0] 0 1).1⟩
        ↔ stepError exOpts.atol exOpts.rtol exF [0] 0 1 ≤ 1)
    ∧ (tryStep exOpts.atol exOpts.rtol exOpts.hMin exF [0] 0
          (neededFuel exOpts.hMin 1) 1 = .error .stepSizeUnderflow
        ↔ ∃ k, (∀ j < k, exOpts.hMin ≤ shrinkIter exOpts.atol exOpts.rtol exF [0] 0 j 1
                  ∧ 1 < stepError exOpts.atol exOpts.rtol exF [0] 0
                      (shrinkIter exOpts.atol exOpts.rtol exF [0] 0 j 1))
            ∧ shrinkIter exOpts.atol exOpts.rtol exF [0] 0 k 1 < exOpts.hMin) := by
  have hv : Options.Valid exOpts := by
    refine ⟨?_, ?_, ?_⟩ <;> norm_num [exOpts]
  have hac := adaptive_step_control exOpts exF hv
  exact ⟨hv, by norm_num [exOpts], by norm_num,
    hac.2.1 [0] 0 0 1 (by norm_num [exOpts]),
    hac.2.2.2 [0] 0 1 (by norm_num)⟩

/-- C8: the integrator is deterministic — two runs on identical inputs
return identical run results, in particular identical trajectories,
statuses and event records. -/
theorem integrate_deterministic (f : Vec → ℚ → Vec) (y0 : Vec) (a b : RFloat)
    (o : Options) (r1 r2 : RunResult)
    (h1 : r1 = integrate f y0 a b o) (h2 : r2 = integrate f y0 a b o) :
    r1 = r2 ∧ r1.traj = r2.traj ∧ r1.status = r2.status ∧ r1.records = r2.records := by
  subst h1
  subst h2
  exact ⟨rfl, rfl, rfl, rfl⟩

theorem integrate_deterministic_witness :
    integrate exF [0] (.fin 0) (.fin 1) exOpts = integrate exF [0] (.fin 0) (.fin 1) exOpts
    ∧ (integrate exF [0] (.fin 0) (.fin 1) exOpts
        = integrate exF [0] (.fin 0) (.fin 1) exOpts
      ∧ (integrate exF [0] (.fin 0) (.fin 1) exOpts).traj
          = (integrate exF [0] (.fin 0) (.fin 1) exOpts).traj
      ∧ (integrate exF [0] (.fin 0) (.fin 1) exOpts).status
          = (integrate exF [0] (.fin 0) (.fin 1) exOpts).status
      ∧ (integrate exF [0] (.fin 0) (.fin 1) exOpts).records
          = (integrate exF [0] (.fin 0) (.fin 1) exOpts).records) :=
  ⟨rfl, integrate_deterministic exF [0] (.fin 0) (.fin 1) exOpts
    (integrate exF [0] (.fin 0) (.fin 1) exOpts)
    (integrate exF [0] (.fin 0) (.fin 1) exOpts) rfl rfl⟩

end IVP

namespace ModSim

/-! ## Part I theorems -/

theorem np_sign_neg {K : Type} [LinearOrderedField K] (v : K) : np_sign (-v) = -np_sign v := by
  unfold np_sign
  split_ifs <;> first | (exfalso; linarith) | norm_num

/-- C9: for a system built by `make_system` from positive `Mcore`, `Mroll`
and `0 < Rmin < Rmax` (hence positive `rho_h`), `moment_of_inertia` is
monotonically increasing in `r` on `[Rmin, Rmax]`, strictly so away from
equal arguments, and at `r = Rmin` it equals `Mcore * Rmin**2`. -/
theorem moment_of_inertia_monotone {K : Type} [LinearOrderedField K]
    (pi : K) (p : RollParams K) (r1 r2 : K)
    (hpi : 0 < pi) (hMcore : 0 < p.Mcore) (hMroll : 0 < p.Mroll)
    (hRmin : 0 < p.Rmin) (hR : p.Rmin < p.Rmax)
    (hr1 : p.Rmin ≤ r1) (hr12 : r1 ≤ r2) :
    0 < (make_system pi p).rho_h
    ∧ moment_of_inertia pi r1 (make_system pi p) ≤ moment_of_inertia pi r2 (make_system pi p)
    ∧ (moment_of_inertia pi r1 (make_system pi p) = moment_of_inertia pi r2 (make_system pi p)
        → r1 = r2)
    ∧ moment_of_inertia pi p.Rmin (make_system pi p) = p.Mcore * p.Rmin ^ 2 := by
  have hsq : p.Rmin ^ 2 < p.Rmax ^ 2 := by
    have := pow_lt_pow_left hR (le_of_lt hRmin) (two_ne_zero)
    exact this
  have hrho : 0 < (make_system pi p).rho_h := by
    unfold make_system
    exact div_pos hMroll (mul_pos hpi (by linarith))
  have hr1n : (0 : K) ≤ r1 := le_trans (le_of_lt hRmin) hr1
  have hp4 : r1 ^ 4 ≤ r2 ^ 4 := pow_le_pow_left hr1n hr12 4
  refine ⟨hrho, ?_, ?_, ?_⟩
  · unfold moment_of_inertia
    have hc : 0 ≤ pi * (make_system pi p).rho_h / 2 :=
      le_of_lt (div_pos (mul_pos hpi hrho) two_pos)
    simp only
    nlinarith [mul_le_mul_of_nonneg_left hp4 hc]
  · intro heq
    by_contra hne
    have hlt : r1 < r2 := lt_of_le_of_ne hr12 hne
    have hp4' : r1 ^ 4 < r2 ^ 4 := pow_lt_pow_left hlt hr1n (by norm_num)
    have hc : 0 < pi * (make_system pi p).rho_h / 2 :=
      div_pos (mul_pos hpi hrho) two_pos
    unfold moment_of_inertia at heq
    simp only at heq
    nlinarith [mul_lt_mul_of_pos_left hp4' hc]
  · unfold moment_of_inertia
    simp only [make_system]
    ring

theorem moment_of_inertia_monotone_witness :
    (0 : ℚ) < 3 ∧ 0 < (1 : ℚ) ∧ 0 < (1 : ℚ) ∧ 0 < (1 : ℚ) ∧ (1 : ℚ) < 2
    ∧ (1 : ℚ) ≤ 1 ∧ (1 : ℚ) ≤ 2
    ∧ (0 < (make_system (3 : ℚ) ⟨1, 2, 1, 1, 1⟩).rho_h
        ∧ moment_of_inertia (3 : ℚ) 1 (make_system 3 ⟨1, 2, 1, 1, 1⟩)
            ≤ moment_of_inertia (3 : ℚ) 2 (make_system 3 ⟨1, 2, 1, 1, 1⟩)
        ∧ (moment_of_inertia (3 : ℚ) 1 (make_system 3 ⟨1, 2, 1, 1, 1⟩)
              = moment_of_inertia (3 : ℚ) 2 (make_system 3 ⟨1, 2, 1, 1, 1⟩) → (1 : ℚ) = 2)
        ∧ moment_of_inertia (3 : ℚ) (RollParams.Rmin ⟨1, 2, 1, 1, 1⟩)
            (make_system 3 ⟨1, 2, 1, 1, 1⟩)
            = RollParams.Mcore (⟨1, 2, 1, 1, 1⟩ : RollParams ℚ)
                * RollParams.Rmin (⟨1, 2, 1, 1, 1⟩ : RollParams ℚ) ^ 2) :=
  ⟨by norm_num, by norm_num, by norm_num, by norm_num, by norm_num, by norm_num, by norm_num,
    moment_of_inertia_monotone (3 : ℚ) ⟨1, 2, 1, 1, 1⟩ 1 2
      (by norm_num) (by norm_num) (by norm_num) (by norm_num) (by norm_num)
      (by norm_num) (by norm_num)⟩

/-- C10: for every system with positive `rho`, `C_d` and `area`,
`drag_force` is an odd function of the velocity, vanishes at zero velocity,
and always opposes the motion (`v * drag_force(v) <= 0`). -/
theorem drag_force_opposes {K : Type} [LinearOrderedField K]
    (sys : CarSystem K) (v : K)
    (hrho : 0 < sys.rho) (hcd : 0 < sys.C_d) (harea : 0 < sys.area) :
    drag_force (-v) sys = -drag_force v sys
    ∧ drag_force 0 sys = 0
    ∧ v * drag_force v sys ≤ 0 := by
  refine ⟨?_, ?_, ?_⟩
  · unfold drag_force
    rw [np_sign_neg]
    ring
  · unfold drag_force np_sign
    norm_num
  · have key : 0 ≤ sys.rho * v ^ 2 * sys.C_d * sys.area / 2 := by positivity
    unfold drag_force np_sign
    rcases lt_trichotomy v 0 with h | h | h
    · rw [if_neg (by linarith), if_pos h]
      nlinarith [key]
    · subst h
      norm_num
    · rw [if_pos h]
      nlinarith [key]

theorem drag_force_opposes_witness :
    (0 : ℚ) < 1 ∧ (0 : ℚ) < 1 ∧ (0 : ℚ) < 1
    ∧ (drag_force (-(-2 : ℚ)) ⟨1, 1, 1, 300⟩ = -drag_force (-2 : ℚ) ⟨1, 1, 1, 300⟩
        ∧ drag_force (0 : ℚ) ⟨1, 1, 1, 300⟩ = 0
        ∧ (-2 : ℚ) * drag_force (-2 : ℚ) ⟨1, 1, 1, 300⟩ ≤ 0) :=
  ⟨by norm_num, by norm_num, by norm_num,
    drag_force_opposes (⟨1, 1, 1, 300⟩ : CarSystem ℚ) (-2)
      (by norm_num) (by norm_num) (by norm_num)⟩

end ModSim
